import Mathlib

/-!
Verification development for the portfolio-blog content loader and metadata
pipeline, together with the sitemap generator of `src/app/sitemap.ts`.

Text is modelled as `List Char` (a UTF-8 decoded character sequence); a line
is likewise a `List Char` containing no newline character.  String literals
enter through `String.data`.

The content loader itself (`app/insights/utils.ts` and the post-listing
component) is not part of the source tree available here; its behaviour is
modelled from the specification, definition by definition, as indicated in
the doc comments.  The sitemap generator is translated directly from
`src/app/sitemap.ts`.
-/

/-- A line of text: characters with no newline. -/
abbrev Line := List Char

/-- Whitespace test used for trimming and blank-line detection. -/
def isWS (c : Char) : Bool :=
  c == ' ' || c == '\t' || c == '\r' || c == '\n'

/-- Drop leading whitespace. -/
def trimL (l : Line) : Line := l.dropWhile isWS

/-- Drop trailing whitespace. -/
def trimR (l : Line) : Line := (l.reverse.dropWhile isWS).reverse

/-- Trim surrounding whitespace from a line fragment. -/
def trim (l : Line) : Line := trimR (trimL l)

/-- A blank line: every character is whitespace. -/
def isBlank (l : Line) : Bool := l.all isWS

/-- Quote characters recognised by the metadata parser. -/
def isQuote (c : Char) : Bool := c == '\'' || c == '"'

/-- The front-matter delimiter: a line consisting solely of three hyphens. -/
def delimLine : Line := ['-', '-', '-']

/-- Prepend a character to the first line of a non-empty line list. -/
def consHead (c : Char) : List Line → List Line
  | [] => [[c]]
  | l :: ls => (c :: l) :: ls

/-- Split a text into its lines at newline characters. -/
def splitLines : List Char → List Line
  | [] => [[]]
  | c :: cs => if c = '\n' then [] :: splitLines cs else consHead c (splitLines cs)

/-- Join lines back into a text with newline separators. -/
def joinLines : List Line → List Char
  | [] => []
  | [l] => l
  | l :: ls => l ++ '\n' :: joinLines ls

/-- Find the first delimiter line, returning the lines before it and the
lines after it. -/
def findDelim : List Line → Option (List Line × List Line)
  | [] => none
  | l :: ls =>
    if l = delimLine then some ([], ls)
    else (findDelim ls).map (fun p => (l :: p.1, p.2))

/-- Modelled from the spec: locate the first delimiter line and the second
occurrence after it; the lines between are the header block, the lines after
the second delimiter are the body.  `none` when no delimiter pair exists. -/
def splitDelims (ls : List Line) : Option (List Line × List Line) :=
  match findDelim ls with
  | none => none
  | some (_, rest) =>
    match findDelim rest with
    | none => none
    | some (header, body) => some (header, body)

/-- Split a line on the first colon into the part before and the part
after; `none` when the line has no colon. -/
def splitFirstColon : Line → Option (Line × Line)
  | [] => none
  | c :: cs =>
    if c = ':' then some ([], cs)
    else (splitFirstColon cs).map (fun p => (c :: p.1, p.2))

/-- Modelled from the spec: strip one pair of matching leading/trailing
quote characters from a value when it both starts and ends with the same
quote character and has length at least two. -/
def stripQuotes (v : Line) : Line :=
  if 2 ≤ v.length && isQuote (v.headD ' ') && (v.headD ' ' == v.getLastD ' ') then
    (v.drop 1).dropLast
  else v

/-- Modelled from the spec: parse one header line.  Blank lines and lines
with no colon are skipped; otherwise split on the first colon, trim both
sides, and strip one pair of quotes from the value. -/
def parseLine (l : Line) : Option (Line × Line) :=
  if isBlank l then none
  else
    match splitFirstColon l with
    | none => none
    | some (k, v) => some (trim k, stripQuotes (trim v))

/-- The metadata mapping: keys to values, keys unique. -/
abbrev Metadata := List (Line × Line)

/-- Modelled from the spec: record a key/value pair in the mapping, a later
duplicate key overwriting an earlier one. -/
def insertMeta (m : Metadata) (k v : Line) : Metadata :=
  m.filter (fun p => !(p.1 == k)) ++ [(k, v)]

/-- Look a key up in the metadata mapping. -/
def mget (m : Metadata) (k : Line) : Option Line :=
  (m.find? (fun p => p.1 == k)).map Prod.snd

/-- Modelled from the spec: collect the key/value pairs of the header block
into the metadata mapping, in line order. -/
def collectMeta (hs : List Line) : Metadata :=
  (hs.filterMap parseLine).foldl (fun m kv => insertMeta m kv.1 kv.2) []

/-- Modelled from the spec: the header/body split of a raw file, as line
lists.  `none` when the file has no delimiter pair. -/
def parseParts (t : List Char) : Option (List Line × List Line) :=
  splitDelims (splitLines t)

/-- Modelled from the spec: the metadata parser.  With no delimiter pair
the whole file is body and the metadata is empty; otherwise the header
block parses to the metadata mapping and the lines after the second
delimiter are the body.  A total function: parsing never fails. -/
def parseFrontmatter (t : List Char) : Metadata × List Char :=
  match parseParts t with
  | none => ([], t)
  | some (h, b) => (collectMeta h, joinLines b)

/-- A blog post: slug derived from the file name, parsed metadata, raw body. -/
structure Post where
  slug : List Char
  metadata : Metadata
  content : List Char

/-- The metadata key holding the publication date. -/
def pubKey : Line := "publishedAt".data

/-- The sort key of a post: its `publishedAt` metadata value, the empty
string when the key is missing. -/
def sortKey (p : Post) : Line := (mget p.metadata pubKey).getD []

/-- Lexicographic comparison of character sequences by code point, the
plain string comparison used for the date sort. -/
def lexLe : List Char → List Char → Bool
  | [], _ => true
  | _ :: _, [] => false
  | a :: as, b :: bs =>
    if a.toNat = b.toNat then lexLe as bs else decide (a.toNat < b.toNat)

/-- Descending date order on posts: `a` precedes `b` when `b`'s date is at
most `a`'s under plain string comparison. -/
def byDateDesc (a b : Post) : Prop := lexLe (sortKey b) (sortKey a) = true

instance : DecidableRel byDateDesc := fun a b => by
  unfold byDateDesc; infer_instance

/-- Modelled from the spec: `listAll` sorts the assembled post collection
by `metadata.publishedAt` descending (most recent first) using
lexical/string comparison of the date strings, no calendar-aware parsing. -/
def listAll (posts : List Post) : List Post :=
  posts.insertionSort byDateDesc

/-- Modelled from the spec: `findBySlug` returns the post with the given
slug, or `none` (the not-found result) when no scanned post has it. -/
def findBySlug (posts : List Post) (slug : List Char) : Option Post :=
  posts.find? (fun p => p.slug == slug)

/-- A sitemap entry as produced by `src/app/sitemap.ts`: a URL and a
last-modified value (`none` models a missing `publishedAt` field). -/
structure SitemapEntry where
  url : List Char
  lastModified : Option Line
deriving DecidableEq

/-- From `src/app/sitemap.ts`: the exported base URL constant. -/
def baseUrl : List Char := "https://portfolio-blog-starter.vercel.app".data

/-- From `src/app/sitemap.ts`: each post maps to the entry
`{url: baseUrl + "/insights/" + slug, lastModified: metadata.publishedAt}`. -/
def blogEntries (posts : List Post) : List SitemapEntry :=
  posts.map (fun p =>
    { url := baseUrl ++ "/insights/".data ++ p.slug
      lastModified := mget p.metadata pubKey })

/-- From `src/app/sitemap.ts`: the two static routes `''` and `'/insights'`,
each stamped with the current date (`new Date().toISOString().split('T')[0]`,
modelled as the parameter `today`). -/
def routeEntries (today : Line) : List SitemapEntry :=
  [[], "/insights".data].map (fun r => { url := baseUrl ++ r, lastModified := some today })

/-- From `src/app/sitemap.ts`: the sitemap is the static routes followed by
the blog entries.  The ambient post collection and current date are passed
as parameters. -/
def sitemap (today : Line) (posts : List Post) : List SitemapEntry :=
  routeEntries today ++ blogEntries posts

/-! ### Order lemmas for the date sort -/

theorem lexLe_total (a b : List Char) : lexLe a b = true ∨ lexLe b a = true := by
  induction a generalizing b with
  | nil => left; rfl
  | cons c cs ih =>
    cases b with
    | nil => right; rfl
    | cons d ds =>
      by_cases h : c.toNat = d.toNat
      · rcases ih ds with h1 | h1
        · left; simp [lexLe, h, h1]
        · right; simp [lexLe, h.symm, h1]
      · rcases Nat.lt_or_ge c.toNat d.toNat with hlt | hge
        · left; simp [lexLe, h, hlt]
        · have hne : d.toNat ≠ c.toNat := fun e => h e.symm
          have hlt : d.toNat < c.toNat := Nat.lt_of_le_of_ne hge (fun e => h e.symm)
          right; simp [lexLe, hne, hlt]

theorem lexLe_trans (a b c : List Char) (h1 : lexLe a b = true) (h2 : lexLe b c = true) :
    lexLe a c = true := by
  induction a generalizing b c with
  | nil => rfl
  | cons x xs ih =>
    cases b with
    | nil => simp [lexLe] at h1
    | cons y ys =>
      cases c with
      | nil => simp [lexLe] at h2
      | cons z zs =>
        by_cases hxy : x.toNat = y.toNat
        · by_cases hyz : y.toNat = z.toNat
          · have hxz : x.toNat = z.toNat := hxy.trans hyz
            simp [lexLe, hxy] at h1
            simp [lexLe, hyz] at h2
            simp [lexLe, hxz, ih ys zs h1 h2]
          · simp [lexLe, hyz] at h2
            have hxz : x.toNat < z.toNat := hxy ▸ h2
            simp [lexLe, Nat.ne_of_lt hxz, hxz]
        · simp [lexLe, hxy] at h1
          by_cases hyz : y.toNat = z.toNat
          · have hxz : x.toNat < z.toNat := hyz ▸ h1
            simp [lexLe, Nat.ne_of_lt hxz, hxz]
          · simp [lexLe, hyz] at h2
            have hxz : x.toNat < z.toNat := Nat.lt_trans h1 h2
            simp [lexLe, Nat.ne_of_lt hxz, hxz]

instance : IsTotal Post byDateDesc :=
  ⟨fun a b => lexLe_total (sortKey b) (sortKey a)⟩

instance : IsTrans Post byDateDesc :=
  ⟨fun a b c h1 h2 => lexLe_trans (sortKey c) (sortKey b) (sortKey a) h2 h1⟩

/-- A post dated 2024-01-01, for the concrete ordering example. -/
def postJan : Post := ⟨"jan".data, [(pubKey, "2024-01-01".data)], []⟩

/-- A post dated 2024-06-23, for the concrete ordering example. -/
def postJun : Post := ⟨"jun".data, [(pubKey, "2024-06-23".data)], []⟩

/-- A post dated 2024-10-23, for the concrete ordering example. -/
def postOct : Post := ⟨"oct".data, [(pubKey, "2024-10-23".data)], []⟩

/-- C1: `listAll` returns the posts sorted by `metadata.publishedAt`
descending under plain lexical string comparison of the date strings
(`byDateDesc` is defined through `lexLe`, with no calendar-aware parsing),
and the output is a permutation of the input collection; in particular,
posts dated 2024-01-01, 2024-06-23, 2024-10-23 come out in the order
2024-10-23, 2024-06-23, 2024-01-01. -/
theorem C1_listAll_sorted_desc :
    (∀ posts : List Post,
       List.Sorted byDateDesc (listAll posts) ∧ (listAll posts).Perm posts)
    ∧ (listAll [postJan, postJun, postOct]).map sortKey =
        ["2024-10-23".data, "2024-06-23".data, "2024-01-01".data] := by
  constructor
  · intro posts
    exact ⟨List.sorted_insertionSort byDateDesc posts,
           List.perm_insertionSort byDateDesc posts⟩
  · decide

/-! ### Sitemap claims -/

/-- A post with slug `blockchain` and no metadata, a concrete input for the
sitemap claims. -/
def postBlockchain : Post := ⟨"blockchain".data, [], []⟩

/-- C2 counterexample: the claim that a post's sitemap URL is the base URL
concatenated with `"/"` and the slug fails on the code, which inserts the
`/insights` path segment: for the post with slug `blockchain` the generated
URL is not `baseUrl ++ "/" ++ "blockchain"`. -/
theorem C2_url_counterexample :
    (blogEntries [postBlockchain]).map SitemapEntry.url ≠
      [baseUrl ++ "/".data ++ "blockchain".data] := by decide

/-- C2 (amended): the sitemap generator maps the `i`-th post to an entry
whose URL is the base URL concatenated with `"/insights/"` and the post's
slug, and whose `lastModified` is the post's `publishedAt` metadata value
propagated unchanged (absent when the key is missing). -/
theorem C2_sitemap_entry (posts : List Post) (i : Nat) (h : i < posts.length) :
    (blogEntries posts).get ⟨i, by simpa [blogEntries] using h⟩ =
      { url := baseUrl ++ "/insights/".data ++ (posts.get ⟨i, h⟩).slug
        lastModified := mget (posts.get ⟨i, h⟩).metadata pubKey } := by
  simp [blogEntries]

theorem C2_sitemap_entry_witness :
    (blogEntries [postBlockchain]).get ⟨0, by decide⟩ =
      { url := baseUrl ++ "/insights/".data ++ "blockchain".data
        lastModified := none } :=
  (C2_sitemap_entry [postBlockchain] 0 (by decide)).trans (by decide)

/-- C10: the sitemap output is exactly the two static entries — the base
URL and the base URL followed by `/insights`, each stamped with the current
date (`today`) — followed by all blog-post entries; in particular the two
static entries are present even for an empty post collection. -/
theorem C10_sitemap_static_routes :
    (∀ (today : Line) (posts : List Post),
       sitemap today posts =
         { url := baseUrl, lastModified := some today } ::
         { url := baseUrl ++ "/insights".data, lastModified := some today } ::
         blogEntries posts)
    ∧ ∀ today : Line,
        sitemap today [] =
          [{ url := baseUrl, lastModified := some today },
           { url := baseUrl ++ "/insights".data, lastModified := some today }] := by
  constructor
  · intro today posts
    simp [sitemap, routeEntries]
  · intro today
    simp [sitemap, routeEntries, blogEntries]

/-! ### Parser totality -/

/-- C3: the metadata parser is a total function — for every input text it
returns a `(Metadata, body)` pair and never fails; when the text has no
delimiter pair the result degrades to empty metadata with the whole text as
body. -/
theorem C3_parser_total (t : List Char) :
    (∃ md body, parseFrontmatter t = (md, body)) ∧
    (parseParts t = none → parseFrontmatter t = ([], t)) := by
  refine ⟨⟨(parseFrontmatter t).1, (parseFrontmatter t).2, rfl⟩, fun h => ?_⟩
  simp [parseFrontmatter, h]

theorem C3_parser_total_witness :
    parseFrontmatter ("no delimiters here".data) = ([], "no delimiters here".data) :=
  (C3_parser_total ("no delimiters here".data)).2 (by decide)

/-! ### Delimiter-search lemmas -/

theorem findDelim_eq_some (ls a r : List Line) (h : findDelim ls = some (a, r)) :
    ls = a ++ delimLine :: r ∧ ∀ x ∈ a, x ≠ delimLine := by
  induction ls generalizing a r with
  | nil => simp [findDelim] at h
  | cons l ls ih =>
    by_cases hd : l = delimLine
    · simp [findDelim, hd] at h
      obtain ⟨ha, hr⟩ := h
      subst ha; subst hr; subst hd
      exact ⟨rfl, by simp⟩
    · simp [findDelim, hd] at h
      cases e : findDelim ls with
      | none => rw [e] at h; simp at h
      | some p =>
        rw [e] at h
        simp at h
        obtain ⟨a', hp, ha⟩ := h
        subst hp
        subst ha
        obtain ⟨hdec, hna⟩ := ih a' r e
        refine ⟨by rw [List.cons_append, ← hdec], ?_⟩
        intro x hx
        rcases List.mem_cons.mp hx with hx | hx
        · exact hx ▸ hd
        · exact hna x hx

theorem findDelim_eq_none (ls : List Line) (h : ∀ l ∈ ls, l ≠ delimLine) :
    findDelim ls = none := by
  induction ls with
  | nil => rfl
  | cons l ls ih =>
    have hl : l ≠ delimLine := h l (List.mem_cons_self l ls)
    rw [findDelim, if_neg hl, ih (fun x hx => h x (List.mem_cons_of_mem l hx))]
    rfl

theorem findDelim_prepend (a r : List Line) (h : ∀ x ∈ a, x ≠ delimLine) :
    findDelim (a ++ delimLine :: r) = some (a, r) := by
  induction a with
  | nil => simp [findDelim]
  | cons x a ih =>
    have hx : x ≠ delimLine := h x (List.mem_cons_self x a)
    rw [List.cons_append, findDelim, if_neg hx,
        ih (fun y hy => h y (List.mem_cons_of_mem x hy))]
    rfl

/-- C4: an input text that contains no front-matter delimiter pair — at
most one line of the text equals `---` — parses to empty metadata with the
body equal to the full original text. -/
theorem C4_no_delimiter_pair (t : List Char)
    (h : (splitLines t).countP (fun l => decide (l = delimLine)) ≤ 1) :
    parseFrontmatter t = ([], t) := by
  have hnone : parseParts t = none := by
    unfold parseParts
    cases e1 : findDelim (splitLines t) with
    | none => simp [splitDelims, e1]
    | some p =>
      obtain ⟨pre, rest⟩ := p
      obtain ⟨hdec, _⟩ := findDelim_eq_some _ pre rest e1
      rw [hdec] at h
      rw [List.countP_append, List.countP_cons] at h
      simp at h
      have hzero : rest.countP (fun l => decide (l = delimLine)) = 0 := by omega
      have hall : ∀ l ∈ rest, l ≠ delimLine := by
        intro l hl
        have := List.countP_eq_zero.mp hzero l hl
        simpa using this
      simp [splitDelims, e1, findDelim_eq_none rest hall]
  simp [parseFrontmatter, hnone]

theorem C4_no_delimiter_pair_witness :
    parseFrontmatter ("hello\nworld".data) = ([], "hello\nworld".data) :=
  C4_no_delimiter_pair ("hello\nworld".data) (by decide)

/-! ### Lookup miss -/

/-- C8: `findBySlug` on a slug carried by no post in the scanned set
returns `none`, the not-found result; being a total function it never
throws. -/
theorem C8_find_by_slug_miss (posts : List Post) (slug : List Char)
    (h : ∀ p ∈ posts, p.slug ≠ slug) : findBySlug posts slug = none := by
  unfold findBySlug
  rw [List.find?_eq_none]
  intro p hp
  simpa using h p hp

theorem C8_find_by_slug_miss_witness :
    findBySlug [postJan, postJun, postOct] ("missing".data) = none :=
  C8_find_by_slug_miss [postJan, postJun, postOct] ("missing".data) (by decide)

/-! ### Header-line parsing -/

theorem splitFirstColon_append (k v : Line) (hk : ':' ∉ k) :
    splitFirstColon (k ++ ':' :: v) = some (k, v) := by
  induction k with
  | nil => simp [splitFirstColon]
  | cons c cs ih =>
    have hc : ¬ c = ':' := fun e => hk (e ▸ List.mem_cons_self c cs)
    have hcs : ':' ∉ cs := fun m => hk (List.mem_cons_of_mem c m)
    rw [List.cons_append, splitFirstColon]
    simp [hc, ih hcs]

theorem colon_line_not_blank (k v : Line) : isBlank (k ++ ':' :: v) = false := by
  by_contra hb
  have ht : isBlank (k ++ ':' :: v) = true := by
    cases e : isBlank (k ++ ':' :: v)
    · exact absurd e hb
    · rfl
  rw [isBlank, List.all_eq_true] at ht
  exact absurd (ht ':' (by simp)) (by decide)

/-- C5: a header line splits on the first colon only, so the value keeps
every later colon: for any key containing no colon, parsing
`key ++ ":" ++ value` yields the trimmed key and the trimmed, quote-stripped
value, whatever colons the value contains; concretely,
`summary: A look at x: y and z` parses to value `A look at x: y and z`. -/
theorem C5_split_on_first_colon :
    (∀ k v : Line, ':' ∉ k →
       splitFirstColon (k ++ ':' :: v) = some (k, v) ∧
       parseLine (k ++ ':' :: v) = some (trim k, stripQuotes (trim v)))
    ∧ parseLine ("summary: A look at x: y and z".data) =
        some ("summary".data, "A look at x: y and z".data) := by
  constructor
  · intro k v hk
    refine ⟨splitFirstColon_append k v hk, ?_⟩
    rw [parseLine, colon_line_not_blank k v]
    simp [splitFirstColon_append k v hk]
  · decide

theorem C5_split_on_first_colon_witness :
    splitFirstColon ("key".data ++ ':' :: " a: b".data) =
      some ("key".data, " a: b".data) :=
  ((C5_split_on_first_colon.1 ("key".data) (" a: b".data) (by decide)).1)

/-! ### Quote stripping -/

theorem getLastD_concat (a d : Char) (l : Line) : (l ++ [a]).getLastD d = a := by
  induction l generalizing d with
  | nil => rfl
  | cons c cs ih => rw [List.cons_append, List.getLastD_cons, ih]

theorem getLastD_irrel (l : Line) (hl : l ≠ []) (d₁ d₂ : Char) :
    l.getLastD d₁ = l.getLastD d₂ := by
  cases l with
  | nil => exact absurd rfl hl
  | cons c cs => rw [List.getLastD_cons, List.getLastD_cons]

theorem dropLast_getLastD (l : Line) (hl : l ≠ []) (d : Char) :
    l.dropLast ++ [l.getLastD d] = l := by
  induction l generalizing d with
  | nil => exact absurd rfl hl
  | cons c cs ih =>
    cases cs with
    | nil => rfl
    | cons x xs =>
      rw [List.getLastD_cons, List.dropLast_cons₂, List.cons_append,
          ih (by simp) c]

/-- C6: quote stripping removes exactly one pair of matching quote
characters, for single and double quotes, and only when the trimmed value
both starts and ends with the same quote character with length at least 2 —
that is, exactly when the value has the shape `q ++ mid ++ q` for a quote
`q`; on any value without that shape it is the identity.  Concretely the
header line `publishedAt: "2024-08-06"` parses to the unquoted value
`2024-08-06`. -/
theorem C6_strip_quotes :
    (∀ (q : Char) (mid : Line), isQuote q = true →
       stripQuotes (q :: mid ++ [q]) = mid)
    ∧ (∀ v : Line, ¬ (∃ q mid, v = q :: mid ++ [q] ∧ isQuote q = true) →
       stripQuotes v = v)
    ∧ parseLine ("publishedAt: \"2024-08-06\"".data) =
        some ("publishedAt".data, "2024-08-06".data) := by
  refine ⟨?_, ?_, by decide⟩
  · intro q mid hq
    have hlen : 2 ≤ (q :: mid ++ [q]).length := by
      simp [List.length_append]
    have hcond : (decide (2 ≤ (q :: mid ++ [q]).length) &&
        isQuote ((q :: mid ++ [q]).headD ' ') &&
        ((q :: mid ++ [q]).headD ' ' == (q :: mid ++ [q]).getLastD ' ')) = true := by
      have hhead : (q :: mid ++ [q]).headD ' ' = q := rfl
      have hlast : (q :: mid ++ [q]).getLastD ' ' = q := getLastD_concat q ' ' (q :: mid)
      rw [hhead, hlast, hq, decide_eq_true hlen]
      simp
    rw [stripQuotes, if_pos hcond]
    simp [List.dropLast_concat]
  · intro v hno
    rw [stripQuotes]
    by_cases hcond : (decide (2 ≤ v.length) && isQuote (v.headD ' ') &&
        (v.headD ' ' == v.getLastD ' ')) = true
    · exfalso
      apply hno
      have hcond' := hcond
      simp only [Bool.and_eq_true] at hcond'
      obtain ⟨⟨h1, h2⟩, h3⟩ := hcond'
      have hlen : 2 ≤ v.length := of_decide_eq_true h1
      cases v with
      | nil => simp at hlen
      | cons c cs =>
        cases cs with
        | nil => simp at hlen
        | cons x xs =>
          have hne : (x :: xs : Line) ≠ [] := by simp
          have hhead : ((c :: x :: xs : Line).headD ' ') = c := rfl
          have hlast : ((c :: x :: xs : Line).getLastD ' ') =
              (x :: xs : Line).getLastD ' ' := by
            rw [List.getLastD_cons]
            exact getLastD_irrel _ hne c ' '
          rw [hhead] at h2
          rw [hhead, hlast] at h3
          have hceq : c = (x :: xs : Line).getLastD ' ' := eq_of_beq h3
          refine ⟨c, (x :: xs).dropLast, ?_, h2⟩
          have hrest := dropLast_getLastD (x :: xs) hne ' '
          rw [← hceq] at hrest
          rw [List.cons_append, List.cons_eq_cons]
          exact ⟨rfl, hrest.symm⟩
    · rw [if_neg hcond]

theorem C6_strip_quotes_witness :
    stripQuotes ('"' :: "2024-08-06".data ++ ['"']) = "2024-08-06".data :=
  C6_strip_quotes.1 '"' ("2024-08-06".data) (by decide)

/-! ### Metadata mapping: last duplicate wins -/

theorem find?_filter_of_imp {α : Type} (l : List α) (p q : α → Bool)
    (h : ∀ a, p a = true → q a = true) :
    (l.filter q).find? p = l.find? p := by
  induction l with
  | nil => rfl
  | cons a l ih =>
    by_cases hq : q a = true
    · rw [List.filter_cons_of_pos hq]
      by_cases hp : p a = true
      · rw [List.find?_cons_of_pos _ hp, List.find?_cons_of_pos _ hp]
      · rw [List.find?_cons_of_neg _ hp, List.find?_cons_of_neg _ hp, ih]
    · have hp : ¬ p a = true := fun hpa => hq (h a hpa)
      rw [List.filter_cons_of_neg hq, List.find?_cons_of_neg _ hp, ih]

theorem mget_insertMeta (m : Metadata) (k v kq : Line) :
    mget (insertMeta m k v) kq = if kq = k then some v else mget m kq := by
  unfold mget insertMeta
  by_cases he : kq = k
  · subst he
    rw [if_pos rfl]
    have hnone : (m.filter (fun p => !(p.1 == kq))).find? (fun p => p.1 == kq) = none := by
      rw [List.find?_eq_none]
      intro p hp
      have hf := List.of_mem_filter hp
      simp at hf
      simp [hf]
    rw [List.find?_append, hnone]
    simp [List.find?_cons_of_pos]
  · rw [if_neg he]
    have hlast : (([(k, v)] : Metadata)).find? (fun p => p.1 == kq) = none := by
      rw [List.find?_eq_none]
      intro p hp
      simp at hp
      subst hp
      simp
      exact fun e => he e.symm
    rw [List.find?_append, hlast]
    rw [find?_filter_of_imp]
    · cases (m.find? (fun p => p.1 == kq)) <;> rfl
    · intro p hp
      have hpk : p.1 = kq := by simpa using hp
      simp [hpk]
      exact fun e => he e

/-- The value of the last header pair carrying a given key, scanning the
parsed pairs from the end. -/
def lastVal (ps : List (Line × Line)) (k : Line) : Option Line :=
  (ps.reverse.find? (fun p => p.1 == k)).map Prod.snd

theorem mget_foldl_insert (ps : List (Line × Line)) (m : Metadata) (k : Line) :
    mget (ps.foldl (fun m kv => insertMeta m kv.1 kv.2) m) k =
      match lastVal ps k with
      | some v => some v
      | none => mget m k := by
  induction ps generalizing m with
  | nil => simp [lastVal]
  | cons p ps ih =>
    rw [List.foldl_cons, ih]
    have hrev : lastVal (p :: ps) k =
        match lastVal ps k with
        | some v => some v
        | none => if p.1 == k then some p.2 else none := by
      unfold lastVal
      rw [List.reverse_cons, List.find?_append]
      cases (ps.reverse.find? (fun q => q.1 == k)) with
      | none =>
        by_cases hp : (p.1 == k) = true
        · simp [List.find?_cons_of_pos _ hp, hp]
        · simp [List.find?_cons_of_neg _ hp, hp]
      | some q => simp
    rw [hrev]
    cases e : lastVal ps k with
    | some v => simp
    | none =>
      simp only []
      rw [mget_insertMeta]
      by_cases hp : (p.1 == k) = true
      · have : k = p.1 := (eq_of_beq hp).symm
        simp [hp, this]
      · have : ¬ k = p.1 := fun e' => hp (by simp [e'])
        simp [hp, this]

/-- C7: looking any key up in the parsed metadata of a header block yields
exactly the value of the last header line carrying that key (later
duplicates overwrite earlier ones), and `none` for keys no header line
carries; concretely a header with `title: A` then `title: B` parses to the
single pair `title ↦ B`. -/
theorem C7_last_duplicate_wins :
    (∀ (hs : List Line) (k : Line),
       mget (collectMeta hs) k = lastVal (hs.filterMap parseLine) k)
    ∧ parseFrontmatter ("---\ntitle: A\ntitle: B\n---\nbody".data) =
        ([("title".data, "B".data)], "body".data) := by
  constructor
  · intro hs k
    unfold collectMeta
    rw [mget_foldl_insert]
    cases e : lastVal (hs.filterMap parseLine) k with
    | some v => simp
    | none => simp [mget]
  · decide

/-! ### Round-trip: split/join of lines -/

theorem splitLines_mem_no_nl (t : List Char) (l : Line) (h : l ∈ splitLines t) :
    '\n' ∉ l := by
  induction t generalizing l with
  | nil =>
    simp [splitLines] at h
    subst h; simp
  | cons c cs ih =>
    by_cases hc : c = '\n'
    · rw [splitLines, if_pos hc] at h
      rcases List.mem_cons.mp h with h | h
      · subst h; simp
      · exact ih l h
    · rw [splitLines, if_neg hc] at h
      cases e : splitLines cs with
      | nil =>
        rw [e] at h; simp [consHead] at h; subst h
        simp only [List.mem_singleton]
        exact fun e' => hc e'.symm
      | cons x xs =>
        rw [e, consHead] at h
        rcases List.mem_cons.mp h with h | h
        · subst h
          intro hm
          rcases List.mem_cons.mp hm with hm | hm
          · exact hc hm.symm
          · exact ih x (e ▸ List.mem_cons_self x xs) hm
        · exact ih l (e ▸ List.mem_cons_of_mem x h)

theorem splitLines_no_nl (l : Line) (h : '\n' ∉ l) : splitLines l = [l] := by
  induction l with
  | nil => rfl
  | cons c cs ih =>
    have hc : ¬ c = '\n' := fun e => h (e ▸ List.mem_cons_self c cs)
    have hcs : '\n' ∉ cs := fun m => h (List.mem_cons_of_mem c m)
    rw [splitLines, if_neg hc, ih hcs, consHead]

theorem splitLines_line_append (l : Line) (t : List Char) (h : '\n' ∉ l) :
    splitLines (l ++ '\n' :: t) = l :: splitLines t := by
  induction l with
  | nil => simp [splitLines]
  | cons c cs ih =>
    have hc : ¬ c = '\n' := fun e => h (e ▸ List.mem_cons_self c cs)
    have hcs : '\n' ∉ cs := fun m => h (List.mem_cons_of_mem c m)
    rw [List.cons_append, splitLines, if_neg hc, ih hcs, consHead]

theorem splitLines_joinLines (ls : List Line) (hne : ls ≠ [])
    (h : ∀ l ∈ ls, '\n' ∉ l) : splitLines (joinLines ls) = ls := by
  induction ls with
  | nil => exact absurd rfl hne
  | cons l ls ih =>
    cases ls with
    | nil => exact splitLines_no_nl l (h l (List.mem_cons_self l []))
    | cons l₂ ls₂ =>
      have h1 : '\n' ∉ l := h l (List.mem_cons_self l _)
      have h2 : ∀ x ∈ l₂ :: ls₂, '\n' ∉ x := fun x hx => h x (List.mem_cons_of_mem l hx)
      have h3 : (l₂ :: ls₂ : List Line) ≠ [] := List.cons_ne_nil l₂ ls₂
      rw [joinLines, splitLines_line_append l _ h1, ih h3 h2]
      exact h3

/-- Rebuild a content file from its header block and body lines:
delimiter, header, delimiter, body. -/
def reserialize (h b : List Line) : List Char :=
  joinLines ([delimLine] ++ h ++ [delimLine] ++ b)

/-- C9: the parser is a deterministic (pure, total) function of the input
text, and re-serialising a parsed file as delimiter + header + delimiter +
body yields a file whose parse gives the same metadata mapping and the same
body as the original. -/
theorem splitDelims_eq_some (ls : List Line) (h b : List Line)
    (hp : splitDelims ls = some (h, b)) :
    ∃ pre rest, findDelim ls = some (pre, rest) ∧ findDelim rest = some (h, b) := by
  unfold splitDelims at hp
  split at hp
  · simp at hp
  · rename_i pre rest e1
    split at hp
    · simp at hp
    · rename_i h' b' e2
      simp at hp
      exact ⟨pre, rest, e1, by rw [e2, hp.1, hp.2]⟩

theorem C9_roundtrip (t : List Char) (h b : List Line)
    (hp : parseParts t = some (h, b)) :
    parseFrontmatter (reserialize h b) = parseFrontmatter t := by
  obtain ⟨pre, rest, e1, e2⟩ := splitDelims_eq_some (splitLines t) h b hp
  obtain ⟨hdec1, _⟩ := findDelim_eq_some _ pre rest e1
  obtain ⟨hdec2, hnd⟩ := findDelim_eq_some _ h b e2
  have hdelim : '\n' ∉ delimLine := by decide
  have hmemhb : ∀ x : Line, x ∈ h ∨ x ∈ b → '\n' ∉ x := by
    intro x hx
    apply splitLines_mem_no_nl t x
    rw [hdec1, hdec2]
    rcases hx with hx | hx <;> simp [hx]
  have hmem : ∀ l ∈ ([delimLine] ++ h ++ [delimLine] ++ b), '\n' ∉ l := by
    intro l hl
    simp only [List.mem_append, List.mem_singleton] at hl
    rcases hl with ((hl | hl) | hl) | hl
    · exact hl ▸ hdelim
    · exact hmemhb l (Or.inl hl)
    · exact hl ▸ hdelim
    · exact hmemhb l (Or.inr hl)
  have hser : splitLines (reserialize h b) = [delimLine] ++ h ++ [delimLine] ++ b := by
    unfold reserialize
    exact splitLines_joinLines _ (by simp) hmem
  have hfirst : findDelim (delimLine :: (h ++ delimLine :: b)) =
      some ([], h ++ delimLine :: b) := by
    simpa using findDelim_prepend [] (h ++ delimLine :: b) (by simp)
  have hsecond : findDelim (h ++ delimLine :: b) = some (h, b) :=
    findDelim_prepend h b hnd
  have hparts : parseParts (reserialize h b) = some (h, b) := by
    unfold parseParts splitDelims
    rw [hser]
    have hX : ([delimLine] ++ h ++ [delimLine] ++ b : List Line) =
        delimLine :: (h ++ delimLine :: b) := by simp
    rw [hX, hfirst]
    simp [hsecond]
  calc parseFrontmatter (reserialize h b)
      = (collectMeta h, joinLines b) := by
        unfold parseFrontmatter
        rw [hparts]
    _ = parseFrontmatter t := by
        unfold parseFrontmatter
        rw [hp]

theorem C9_roundtrip_witness :
    parseFrontmatter (reserialize ["title: Hi".data] ["body text".data]) =
      parseFrontmatter ("---\ntitle: Hi\n---\nbody text".data) :=
  C9_roundtrip ("---\ntitle: Hi\n---\nbody text".data)
    ["title: Hi".data] ["body text".data] (by decide)

